import Mathlib

/-!
Shallow embedding of the packed bit-array implementation in `bitarray.c`
(MIT 6.172 project 1).  Bytes of the underlying `char` buffer are modelled
as natural numbers (the bits observed through the accessors are the low
eight), `size_t` values as `Nat`, `ssize_t` values as `Int`, and the
`int8_t` local variables of `reverse` with explicit wrap-around at 256.
Every operation that can hit a failed `assert` or an out-of-bounds buffer
access returns `Option`, with `none` marking the abort / undefined
behaviour.
-/

/-- Model of `struct bitarray`: the logical bit count and the packed byte
buffer (`char* buf`), one list entry per byte. -/
structure bitarray where
  bit_sz : Nat
  buf : List Nat
deriving DecidableEq, Repr

/-- Conversion of a `size_t` expression to the `int8_t` type of the local
variables `wholel` and `wholer` in `reverse`: wrap modulo 256 into
the signed range [-128, 127]. -/
def toInt8 (n : Nat) : Int :=
  if n % 256 < 128 then (n % 256 : Nat) else (n % 256 : Nat) - 256

/-- Conversion of a signed `int` expression back to a `size_t` argument
(wrap modulo 2^64), as happens at the call sites inside `reverse`. -/
def toSizeT (x : Int) : Nat :=
  (x % (2 ^ 64 : Int)).toNat

/-- Embedding of `bitmask`: `1 << (bit_index % 8)`, viewed as the 8-bit
pattern of the returned `char`. -/
def bitmask (bit_index : Nat) : Nat :=
  1 <<< (bit_index % 8)

/-- Embedding of `bitarray_new` (the successful allocation path):
`calloc` zero-fills a buffer of `(bit_sz+7)/8` bytes. -/
def bitarray_new (bit_sz : Nat) : bitarray :=
  ⟨bit_sz, List.replicate ((bit_sz + 7) / 8) 0⟩

/-- Embedding of `bitarray_get_bit_sz`. -/
def bitarray_get_bit_sz (h : bitarray) : Nat :=
  h.bit_sz

/-- Embedding of `bitarray_get`: the `assert (bit_index < bit_sz)` becomes
the guard (`none` = abort), then bit `bit_index % 8` of byte
`bit_index / 8` is tested. -/
def bitarray_get (h : bitarray) (bit_index : Nat) : Option Bool :=
  if bit_index < h.bit_sz then
    (h.buf[bit_index / 8]?).map (fun b => (b &&& bitmask bit_index) != 0)
  else none

/-- Embedding of `bitarray_set`: after the bounds assert, byte
`bit_index / 8` is masked with the complement of `bitmask bit_index`
(within the 8 bits of a `char`) and or-ed with the optional mask. -/
def bitarray_set (h : bitarray) (bit_index : Nat) (value : Bool) :
    Option bitarray :=
  if bit_index < h.bit_sz then
    match h.buf[bit_index / 8]? with
    | some b =>
        some ⟨h.bit_sz, h.buf.set (bit_index / 8)
          ((b &&& (255 ^^^ bitmask bit_index)) |||
            (if value then bitmask bit_index else 0))⟩
    | none => none
  else none

/-- Embedding of `modulo`: both asserts are modelled as guards; `%` on
signed operands is C's truncating remainder, i.e. `Int.tmod`. -/
def modulo (n : Int) (m : Nat) : Option Nat :=
  let signed_m : Int := (m : Int)
  if 0 < signed_m then
    let result : Int := (n.tmod signed_m + signed_m).tmod signed_m
    if 0 ≤ result then some result.toNat else none
  else none

/-- Embedding of the loop of `reverse_short`: `for(i=left,j=right;i<j;i++,j--)`,
structurally recursive on `j`.  Both `bitarray_set` calls store the bit
`byte & bitmask(i)` taken from the snapshot `byte` read before the loop. -/
def reverse_short_loop (byte : Nat) : bitarray → Nat → Nat → Option bitarray
  | h, _, 0 => some h
  | h, i, j + 1 =>
    if i < j + 1 then do
      let tmp : Bool := (byte &&& bitmask i) != 0
      let h1 ← bitarray_set h i tmp
      let h2 ← bitarray_set h1 (j + 1) tmp
      reverse_short_loop byte h2 (i + 1) j
    else some h

/-- Embedding of `reverse_short`: reads `buf[left >> 3]` once (abort on an
out-of-bounds buffer read), then runs the swap loop. -/
def reverse_short (h : bitarray) (left right : Nat) : Option bitarray :=
  match h.buf[left >>> 3]? with
  | some byte => reverse_short_loop byte h left right
  | none => none

/-- Embedding of the loop of `reverse_byte`: swap bytes `i` and `j` from
the outside in, reversing the 8 bits of each swapped byte with
`reverse_short`; structurally recursive on `j`. -/
def reverse_byte_loop : bitarray → Nat → Nat → Option bitarray
  | h, _, 0 => some h
  | h, i, j + 1 =>
    if i < j + 1 then do
      let tmp ← h.buf[i]?
      let bj ← h.buf[j + 1]?
      let h1 : bitarray := ⟨h.bit_sz, (h.buf.set i bj).set (j + 1) tmp⟩
      let h2 ← reverse_short h1 (8 * i) (8 * i + 7)
      let h3 ← reverse_short h2 (8 * (j + 1)) (8 * (j + 1) + 7)
      reverse_byte_loop h3 (i + 1) j
    else some h

/-- Embedding of `reverse_byte`. -/
def reverse_byte (h : bitarray) (byteleft byteright : Nat) : Option bitarray :=
  reverse_byte_loop h byteleft byteright

/-- Embedding of `reverse`: `wholel` and `wholer` are `int8_t` locals, so
their values wrap at 256; the dead reads of `byte1`/`byte2` are kept
because an out-of-bounds read is undefined behaviour; the argument
expressions `wholel-1`, `wholel/8` and `wholer/8-1` are evaluated in
signed `int` arithmetic (`Int.tdiv` is C's truncating division) and then
converted to the `size_t` parameters. -/
def reverse (h : bitarray) (left right : Nat) : Option bitarray := do
  let wholel : Int := toInt8 (((left + 7) / 8) * 8)
  let wholer : Int := toInt8 (right - right % 8)
  let _byte1 ← h.buf[left / 8]?
  let _byte2 ← h.buf[right / 8]?
  let h1 ← reverse_short h left (toSizeT (wholel - 1))
  let h2 ← reverse_short h1 (toSizeT wholer) right
  reverse_byte h2 (toSizeT (wholel.tdiv 8)) (toSizeT (wholer.tdiv 8 - 1))

/-- Embedding of `bitarray_rotate_left` (the active three-reversal
version): `l`, `m`, `r` as in the source; returns unchanged when
`bit_left_amount == 0`. -/
def bitarray_rotate_left (h : bitarray)
    (bit_offset bit_length bit_left_amount : Nat) : Option bitarray :=
  let l := bit_offset
  let m := bit_offset + bit_left_amount
  let r := bit_offset + bit_length - 1
  if bit_left_amount = 0 then some h
  else do
    let h1 ← reverse h l (m - 1)
    let h2 ← reverse h1 m r
    reverse h2 l r

/-- Embedding of `bitarray_rotate`: the range assert is a guard; note the
source calls `modulo(-bit_right_amount, bit_length)` BEFORE testing
`bit_length == 0`, so a zero length reaches `modulo`'s `m > 0` assert. -/
def bitarray_rotate (h : bitarray) (bit_offset bit_length : Nat)
    (bit_right_amount : Int) : Option bitarray :=
  if bit_offset + bit_length ≤ h.bit_sz then do
    let bit_left_amount ← modulo (-bit_right_amount) bit_length
    if bit_length = 0 ∨ bit_left_amount = 0 then some h
    else bitarray_rotate_left h bit_offset bit_length bit_left_amount
  else none

/-- Helper for `bitarray_randfill`: store one `int32_t` word (4 bytes,
little-endian) at byte offset `base`. -/
def writeWord (buf : List Nat) (base : Nat) (w : Nat) : List Nat :=
  ((((buf.set base (w % 256)).set (base + 1) (w / 2 ^ 8 % 256)).set
      (base + 2) (w / 2 ^ 16 % 256)).set (base + 3) (w / 2 ^ 24 % 256))

/-- Embedding of the loop of `bitarray_randfill`: word `i` is written for
`i = 0 .. bit_sz/32`; a word that runs past the buffer is an out-of-bounds
write (undefined behaviour), modelled as `none`. -/
def randfill_loop (rand : Nat → Nat) : Nat → Nat → List Nat → Option (List Nat)
  | _, 0, buf => some buf
  | i, k + 1, buf =>
    if 4 * i + 3 < buf.length then
      randfill_loop rand (i + 1) k (writeWord buf (4 * i) (rand i))
    else none

/-- Embedding of `bitarray_randfill`; `rand i` models the `i`-th value
returned by `rand()`. -/
def bitarray_randfill (h : bitarray) (rand : Nat → Nat) : Option bitarray :=
  (randfill_loop rand 0 (h.bit_sz / 32 + 1) h.buf).map
    (fun b => (⟨h.bit_sz, b⟩ : bitarray))

/-- Specification-side definition (from the words of the rotation claim):
after rotating the range `[offset, offset+length)` right by `right_amount`,
the bit now at index `i` inside the range came from range position
`(p - right_amount) mod length` where `p = i - offset`; bits outside the
range are unchanged. -/
def spec_rotated_bit (h : bitarray) (offset length : Nat) (right_amount : Int)
    (i : Nat) : Option Bool :=
  if offset ≤ i ∧ i < offset + length then
    bitarray_get h
      (offset + (((i - offset : Int) - right_amount) % (length : Int)).toNat)
  else bitarray_get h i

/-! ### Helper lemmas -/

/-- Truncating remainder of a negated dividend. -/
theorem neg_tmod (a b : Int) : (-a).tmod b = -(a.tmod b) := by
  rw [Int.tmod_def, Int.tmod_def, Int.neg_tdiv]; ring

/-- The two-step truncating-remainder computation used by `modulo`
coincides with the mathematical (Euclidean) remainder for a positive
divisor. -/
theorem tmod_shift_eq_emod (n m : Int) (hm : 0 < m) :
    (n.tmod m + m).tmod m = n % m := by
  have hlb : -m < n.tmod m := by
    rcases le_or_lt 0 n with hn | hn
    · have := Int.tmod_nonneg m hn; omega
    · have h1 := neg_tmod (-n) m
      have h2 := Int.tmod_lt_of_pos (-n) hm
      simp only [neg_neg] at h1
      omega
  have hnn : 0 ≤ n.tmod m + m := by omega
  rw [Int.tmod_eq_emod hnn (le_of_lt hm)]
  have hd : n.tmod m + m = n + m * (1 - n.tdiv m) := by
    rw [Int.tmod_def]; ring
  rw [hd]
  exact Int.add_mul_emod_self_left n m (1 - n.tdiv m)

/-- Every bit position inside a byte is set in the mask 255. -/
theorem testBit_255 {k : Nat} (hk : k < 8) : Nat.testBit 255 k = true := by
  rw [show (255 : Nat) = 2 ^ 8 - 1 from rfl, Nat.testBit_two_pow_sub_one]
  simpa using hk

/-- The nonzero test of `x & bitmask i` is exactly bit `i % 8` of `x`. -/
theorem and_bitmask_bne (x i : Nat) :
    ((x &&& bitmask i) != 0) = x.testBit (i % 8) := by
  unfold bitmask
  rw [Nat.one_shiftLeft, Nat.and_two_pow]
  cases h : x.testBit (i % 8) <;> simp [h]

/-- `bitarray_set` never changes the stored bit count. -/
theorem bitarray_set_bit_sz {h h' : bitarray} {i : Nat} {v : Bool}
    (e : bitarray_set h i v = some h') : h'.bit_sz = h.bit_sz := by
  unfold bitarray_set at e
  split at e
  · split at e
    · cases e; rfl
    · cases e
  · cases e

/-- The loop of `reverse_short` never changes the stored bit count. -/
theorem reverse_short_loop_bit_sz (byte : Nat) :
    ∀ (j i : Nat) (h h' : bitarray),
      reverse_short_loop byte h i j = some h' → h'.bit_sz = h.bit_sz := by
  intro j
  induction j with
  | zero =>
    intro i h h' e
    simp only [reverse_short_loop, Option.some.injEq] at e
    rw [← e]
  | succ j ih =>
    intro i h h' e
    simp only [reverse_short_loop] at e
    split at e
    · simp only [bind, Option.bind_eq_some] at e
      obtain ⟨h1, e1, h2, e2, e3⟩ := e
      rw [ih _ _ _ e3, bitarray_set_bit_sz e2, bitarray_set_bit_sz e1]
    · cases e; rfl

/-- `reverse_short` never changes the stored bit count. -/
theorem reverse_short_bit_sz {h h' : bitarray} {left right : Nat}
    (e : reverse_short h left right = some h') : h'.bit_sz = h.bit_sz := by
  unfold reverse_short at e
  split at e
  · exact reverse_short_loop_bit_sz _ _ _ _ _ e
  · cases e

/-- The loop of `reverse_byte` never changes the stored bit count. -/
theorem reverse_byte_loop_bit_sz :
    ∀ (j i : Nat) (h h' : bitarray),
      reverse_byte_loop h i j = some h' → h'.bit_sz = h.bit_sz := by
  intro j
  induction j with
  | zero =>
    intro i h h' e
    simp only [reverse_byte_loop, Option.some.injEq] at e
    rw [← e]
  | succ j ih =>
    intro i h h' e
    simp only [reverse_byte_loop] at e
    split at e
    · simp only [bind, Option.bind_eq_some] at e
      obtain ⟨tmp, _, bj, _, h2, e2, h3, e3, e4⟩ := e
      rw [ih _ _ _ e4, reverse_short_bit_sz e3, reverse_short_bit_sz e2]
    · cases e; rfl

/-- `reverse` never changes the stored bit count. -/
theorem reverse_bit_sz {h h' : bitarray} {left right : Nat}
    (e : reverse h left right = some h') : h'.bit_sz = h.bit_sz := by
  rw [reverse] at e
  simp only [bind, Option.bind_eq_some] at e
  obtain ⟨b1, _, b2, _, h1, e1, h2, e2, e3⟩ := e
  rw [reverse_byte_loop_bit_sz _ _ _ _ e3, reverse_short_bit_sz e2,
    reverse_short_bit_sz e1]

/-- `bitarray_rotate_left` never changes the stored bit count. -/
theorem bitarray_rotate_left_bit_sz {h h' : bitarray} {off len amt : Nat}
    (e : bitarray_rotate_left h off len amt = some h') :
    h'.bit_sz = h.bit_sz := by
  rw [bitarray_rotate_left] at e
  split at e
  · cases e; rfl
  · simp only [bind, Option.bind_eq_some] at e
    obtain ⟨h1, e1, h2, e2, e3⟩ := e
    rw [reverse_bit_sz e3, reverse_bit_sz e2, reverse_bit_sz e1]

/-- `bitarray_rotate` never changes the stored bit count. -/
theorem bitarray_rotate_bit_sz {h h' : bitarray} {off len : Nat} {ra : Int}
    (e : bitarray_rotate h off len ra = some h') : h'.bit_sz = h.bit_sz := by
  rw [bitarray_rotate] at e
  split at e
  · simp only [bind, Option.bind_eq_some] at e
    obtain ⟨la, _, e⟩ := e
    split at e
    · cases e; rfl
    · exact bitarray_rotate_left_bit_sz e
  · cases e

/-- `bitarray_randfill` never changes the stored bit count. -/
theorem bitarray_randfill_bit_sz {h h' : bitarray} {rand : Nat → Nat}
    (e : bitarray_randfill h rand = some h') : h'.bit_sz = h.bit_sz := by
  unfold bitarray_randfill at e
  simp only [Option.map_eq_some'] at e
  obtain ⟨b, _, e⟩ := e
  rw [← e]

/-! ### Claim theorems -/

/-- C1: the claim says `rotate(h, offset, length, right_amount)` cyclically
shifts the bit range `[offset, offset+length)` right by `right_amount`
and leaves all other bits unchanged.  The code violates this: on the
32-bit array `[18, 52, 86, 120]`, `rotate(1, 30, -9)` returns normally
with buffer `[146, 102, 36, 8]`, whose bit 3 disagrees with the cyclic
shift described by the claim (`spec_rotated_bit`). -/
theorem rotate_wrong_bits_at_concrete :
    bitarray_rotate ⟨32, [18, 52, 86, 120]⟩ 1 30 (-9) =
        some ⟨32, [146, 102, 36, 8]⟩ ∧
      bitarray_get ⟨32, [146, 102, 36, 8]⟩ 3 ≠
        spec_rotated_bit ⟨32, [18, 52, 86, 120]⟩ 1 30 (-9) 3 :=
  ⟨by decide, by decide⟩

/-- C2: the claim (spec scenario) says rotating the 10-bit array
`1101001011` (buffer `[75, 3]`) by `rotate(0, 10, 3)` returns normally
with `0111101001` (buffer `[94, 2]`).  The code instead aborts:
`reverse(0, 6)` computes `wholel = 0` and passes `wholel - 1` (wrapping
to `2^64 - 1`) to `reverse_short`, whose first iteration calls
`bitarray_set` at index `2^64 - 1`, failing the bounds assert. -/
theorem rotate_spec_scenario_aborts :
    bitarray_rotate ⟨10, [75, 3]⟩ 0 10 3 = none := by decide

/-- C3: the claim (spec scenario) says `reverse` over `[2, 5]` of the
8-bit array `11010010` (buffer `[75]`) returns normally with `11100110`
(buffer `[103]`).  The code instead performs an out-of-bounds buffer
access: with `left = 2`, `right = 5` it computes `wholer = 0` and calls
`reverse_byte(1, wholer/8 - 1)`, i.e. `reverse_byte(1, 2^64 - 1)`, which
reads `buf[1]` past the one-byte buffer. -/
theorem reverse_spec_scenario_aborts :
    reverse ⟨8, [75]⟩ 2 5 = none := by decide

/-- C4: the claim says applying `reverse` twice over the same range
restores the original contents.  On the 10-bit array with only bit 1 set
(buffer `[2, 0]`), `reverse(1, 9)` applied twice returns buffer
`[130, 0]` (bit 7 set in addition to bit 1), not the original: the loop
of `reverse_short` copies the left half of the range onto the right half
instead of swapping, so it is not an involution. -/
theorem reverse_not_involutive_at_concrete :
    (reverse ⟨10, [2, 0]⟩ 1 9).bind (fun x => reverse x 1 9) =
        some ⟨10, [130, 0]⟩ ∧
      (reverse ⟨10, [2, 0]⟩ 1 9).bind (fun x => reverse x 1 9) ≠
        some ⟨10, [2, 0]⟩ :=
  ⟨by decide, by decide⟩

/-- C5: the claim says any rotate call with `length == 0` is a no-op.
The code instead aborts: `bitarray_rotate` calls
`modulo(-bit_right_amount, bit_length)` before its `bit_length == 0`
early return, and `modulo` asserts `signed_m > 0`, which fails for
`m = 0`. -/
theorem rotate_zero_length_aborts :
    bitarray_rotate ⟨8, [75]⟩ 3 0 0 = none := by decide

/-- C6: `modulo(n, m)` with `m > 0` returns the unique `r` with
`0 <= r < m` and `r ≡ n (mod m)` — the mathematical, always-non-negative
modulo, also for negative dividends. -/
theorem modulo_math (n : Int) (m : Nat) (hm : 0 < m) :
    ∃ r : Nat, modulo n m = some r ∧ r < m ∧ ((r : Int) - n) % (m : Int) = 0 ∧
      ∀ s : Nat, s < m → ((s : Int) - n) % (m : Int) = 0 → s = r := by
  have hmi : (0 : Int) < (m : Int) := by exact_mod_cast hm
  have hkey := tmod_shift_eq_emod n (m : Int) hmi
  have hnn : 0 ≤ n % (m : Int) := Int.emod_nonneg n (by omega)
  have hlt : n % (m : Int) < m := Int.emod_lt_of_pos n hmi
  refine ⟨(n % (m : Int)).toNat, ?_, ?_, ?_, ?_⟩
  · unfold modulo
    rw [if_pos hmi, hkey, if_pos hnn]
  · omega
  · rw [← Int.emod_eq_emod_iff_emod_sub_eq_zero, Int.toNat_of_nonneg hnn,
      Int.emod_emod_of_dvd n dvd_rfl]
  · intro s hs hcong
    rw [← Int.emod_eq_emod_iff_emod_sub_eq_zero] at hcong
    have h3 : (s : Int) % m = s :=
      Int.emod_eq_of_lt (by positivity) (by exact_mod_cast hs)
    omega

/-- Witness for C6 at the concrete input `n = -7`, `m = 3` (where C's
truncating remainder would give `-1`; the function returns `2`). -/
theorem modulo_math_witness :
    ∃ r : Nat, modulo (-7) 3 = some r ∧ r < 3 ∧
      ((r : Int) - (-7)) % (3 : Int) = 0 ∧
      ∀ s : Nat, s < 3 → ((s : Int) - (-7)) % (3 : Int) = 0 → s = r :=
  modulo_math (-7) 3 (by decide)

/-- C7: on a well-formed buffer, after `set(h, i, v)` the call
`get(·, i)` returns `v`, and every other index reads the same value as
before the set. -/
theorem set_then_get (h : bitarray) (i : Nat) (v : Bool)
    (hw : h.buf.length = (h.bit_sz + 7) / 8) (hi : i < h.bit_sz) :
    ∃ h', bitarray_set h i v = some h' ∧ bitarray_get h' i = some v ∧
      ∀ j, j ≠ i → bitarray_get h' j = bitarray_get h j := by
  have hb : i / 8 < h.buf.length := by omega
  have hsome : h.buf[i / 8]? = some h.buf[i / 8] := List.getElem?_eq_getElem hb
  have h8 : i % 8 < 8 := Nat.mod_lt _ (by norm_num)
  refine ⟨⟨h.bit_sz, h.buf.set (i / 8)
      ((h.buf[i / 8] &&& (255 ^^^ bitmask i)) |||
        (if v then bitmask i else 0))⟩, ?_, ?_, ?_⟩
  · simp [bitarray_set, hi, hsome]
  · unfold bitarray_get
    rw [if_pos hi]
    rw [List.getElem?_set_eq (by simpa using hb)]
    rw [Option.map_some']
    congr 1
    rw [and_bitmask_bne]
    unfold bitmask
    rw [Nat.one_shiftLeft]
    cases v <;>
      simp [Nat.testBit_lor, Nat.testBit_land, Nat.testBit_xor,
        Nat.testBit_two_pow_self, Nat.zero_testBit, testBit_255 h8]
  · intro j hj
    unfold bitarray_get
    by_cases hjs : j < h.bit_sz
    · rw [if_pos hjs, if_pos hjs]
      by_cases hbyte : j / 8 = i / 8
      · rw [hbyte]
        rw [List.getElem?_set_eq (by simpa using hb), hsome]
        rw [Option.map_some', Option.map_some']
        congr 1
        rw [and_bitmask_bne, and_bitmask_bne]
        have hbits : j % 8 ≠ i % 8 := by omega
        unfold bitmask
        rw [Nat.one_shiftLeft]
        have hj8 : j % 8 < 8 := Nat.mod_lt _ (by norm_num)
        cases v <;>
          simp [Nat.testBit_lor, Nat.testBit_land, Nat.testBit_xor,
            Nat.testBit_two_pow_self, Nat.zero_testBit, testBit_255 hj8,
            Nat.testBit_two_pow_of_ne (Ne.symm hbits)]
      · rw [List.getElem?_set_ne (by omega)]
    · rw [if_neg hjs, if_neg hjs]

/-- Witness for C7: setting bit 2 of the 10-bit array `[75, 3]`. -/
theorem set_then_get_witness :
    ∃ h', bitarray_set ⟨10, [75, 3]⟩ 2 true = some h' ∧
      bitarray_get h' 2 = some true ∧
      ∀ j, j ≠ 2 → bitarray_get h' j = bitarray_get ⟨10, [75, 3]⟩ j :=
  set_then_get ⟨10, [75, 3]⟩ 2 true (by decide) (by decide)

/-- C8: the claim says the split points of `reverse` are
`whole_left = ceil((left+1)/8)*8` and `whole_right = right - right%8 - 1`,
with the boundary bits reversed inside their bytes and the interior bytes
`[whole_left/8, whole_right/8]` reversed by the byte routine.  The code
violates this: on `reverse(0, 23)` over a 24-bit array the claim puts
`whole_left = 8` (boundary bits `[0, 7]` reversed in byte 0), but the
code computes `wholel = ((0+7)/8)*8 = 0` and calls
`reverse_short(0, wholel - 1)` with the second argument wrapped to
`2^64 - 1`, aborting in `bitarray_set`'s bounds assert instead of
performing any split reversal. -/
theorem reverse_split_aborts_at_byte_aligned_left :
    reverse ⟨24, [75, 60, 129]⟩ 0 23 = none := by decide

/-- C9: `get` or `set` at an index at or beyond `bit_sz` (in particular
at `bit_sz` itself), and `rotate` with `offset + length > bit_sz`, abort
via the bounds asserts instead of returning a value or modifying the
array. -/
theorem contract_violation_aborts (h : bitarray) (i : Nat) (v : Bool)
    (off len : Nat) (ra : Int) (hi : h.bit_sz ≤ i) (hr : h.bit_sz < off + len) :
    bitarray_get h i = none ∧ bitarray_set h i v = none ∧
      bitarray_rotate h off len ra = none := by
  refine ⟨?_, ?_, ?_⟩
  · rw [bitarray_get, if_neg (by omega)]
  · rw [bitarray_set, if_neg (by omega)]
  · rw [bitarray_rotate, if_neg (by omega)]

/-- Witness for C9: index 10 (one past the end) of a 10-bit array, and a
rotate range `[5, 11)` that overruns it. -/
theorem contract_violation_aborts_witness :
    bitarray_get ⟨10, [75, 3]⟩ 10 = none ∧
      bitarray_set ⟨10, [75, 3]⟩ 10 true = none ∧
      bitarray_rotate ⟨10, [75, 3]⟩ 5 6 1 = none :=
  contract_violation_aborts ⟨10, [75, 3]⟩ 10 true 5 6 1 (by decide) (by decide)

/-- C10: `create(n)` reports size `n`, and `set`, `rotate` and
`random_fill` never change the reported size (`get` is read-only in the
embedding and returns no state). -/
theorem bit_sz_stable (n : Nat) :
    bitarray_get_bit_sz (bitarray_new n) = n ∧
    (∀ (h h' : bitarray) (i : Nat) (v : Bool), bitarray_set h i v = some h' →
      bitarray_get_bit_sz h' = bitarray_get_bit_sz h) ∧
    (∀ (h h' : bitarray) (off len : Nat) (ra : Int),
      bitarray_rotate h off len ra = some h' →
      bitarray_get_bit_sz h' = bitarray_get_bit_sz h) ∧
    (∀ (h h' : bitarray) (rand : Nat → Nat), bitarray_randfill h rand = some h' →
      bitarray_get_bit_sz h' = bitarray_get_bit_sz h) :=
  ⟨rfl,
   fun _ _ _ _ e => bitarray_set_bit_sz e,
   fun _ _ _ _ _ e => bitarray_rotate_bit_sz e,
   fun _ _ _ e => bitarray_randfill_bit_sz e⟩

/-- Witness for C10: a fresh 10-bit array reports size 10, and a concrete
`set` preserves the reported size. -/
theorem bit_sz_stable_witness :
    bitarray_get_bit_sz (bitarray_new 10) = 10 ∧
    bitarray_get_bit_sz ⟨10, [79, 3]⟩ = bitarray_get_bit_sz ⟨10, [75, 3]⟩ :=
  ⟨(bit_sz_stable 10).1,
   (bit_sz_stable 10).2.1 ⟨10, [75, 3]⟩ ⟨10, [79, 3]⟩ 2 true (by decide)⟩
